import Mathlib

/-!
Verification of the query-classification, citation-parsing, relevance-ranking
and result-reconciliation core of the auslaw-mcp repository
(`src/services/austlii.ts`, `src/services/jade.ts`, `src/index.ts`).

The TypeScript functions are shallowly embedded as executable Lean
definitions: strings become `String`/`List Char`, the small fixed regular
expressions of the source are compiled by hand into deterministic scanners
(each regex in the source only combines disjoint character classes, so the
greedy backtracking engine degenerates to maximal-run scanning, which is what
the scanners below implement), and the stateful merge loop becomes explicit
state passing over lists.
-/

set_option maxHeartbeats 1000000

namespace AuslawMCP

/-- Provider tag of a search result (`source` field in the source). -/
inductive Source where
  | austlii
  | jade
  deriving DecidableEq, Repr

/-- Document kind (`type` field in the source). -/
inductive DocType where
  | case
  | legislation
  deriving DecidableEq, Repr

/-- Explicit sort preference (`sortBy` field of `SearchOptions`). -/
inductive SortBy where
  | relevance
  | date
  | auto
  deriving DecidableEq, Repr

/-- Derived sort mode returned by `determineSortMode`. -/
inductive SortMode where
  | relevance
  | date
  deriving DecidableEq, Repr

/-- The `SearchResult` interface of `src/services/austlii.ts`.
Optional fields become `Option`. -/
structure SearchResult where
  title : String
  citation : Option String
  neutralCitation : Option String
  reportedCitation : Option String
  url : String
  source : Source
  summary : Option String
  jurisdiction : Option String
  year : Option String
  type : DocType
  deriving DecidableEq, Repr

/-- The `SearchOptions` interface of `src/services/austlii.ts`; only the
fields the verified functions consult are carried. -/
structure SearchOptions where
  jurisdiction : Option String
  limit : Option Nat
  type : DocType
  sortBy : Option SortBy
  deriving DecidableEq, Repr

/-- JavaScript `\w` on ASCII input: letters, digits, underscore. -/
def isWordChar (c : Char) : Bool := c.isAlphanum || c = '_'

/-- Leftmost-match scan: try the position matcher `m` at every suffix, in
order, returning the first success.  This is how a JavaScript regex engine
locates a match: it advances the start position one character at a time. -/
def scanFirst {β : Type} (m : List Char → Option β) : List Char → Option β
  | [] => none
  | c :: rest =>
    match m (c :: rest) with
    | some b => some b
    | none => scanFirst m rest

/-- Tail `\s+(\d+)\s+([A-Z]{2,6})\s+(\d+)` shared by both reported-citation
patterns of `extractReportedCitation`.  Returns the consumed characters and
the remaining input.  All adjacent classes are disjoint, so the greedy
engine takes whole maximal runs. -/
def matchReportedTail (cs : List Char) : Option (List Char × List Char) :=
  let (ws1, r1) := cs.span Char.isWhitespace
  if ws1.isEmpty then none else
  let (vol, r2) := r1.span Char.isDigit
  if vol.isEmpty then none else
  let (ws2, r3) := r2.span Char.isWhitespace
  if ws2.isEmpty then none else
  let (code, r4) := r3.span Char.isUpper
  if code.length < 2 || 6 < code.length then none else
  let (ws3, r5) := r4.span Char.isWhitespace
  if ws3.isEmpty then none else
  let (page, r6) := r5.span Char.isDigit
  if page.isEmpty then none else
  some (ws1 ++ vol ++ ws2 ++ code ++ ws3 ++ page, r6)

/-- Position matcher for `/\((\d{4})\)\s+(\d+)\s+([A-Z]{2,6})\s+(\d+)/`,
the round-bracket reported-citation pattern; returns `match[0]`. -/
def matchRoundAt (cs : List Char) : Option (List Char) :=
  match cs with
  | '(' :: rest =>
    let (year, r1) := rest.span Char.isDigit
    if year.length = 4 then
      match r1 with
      | ')' :: r2 =>
        (matchReportedTail r2).map (fun p => '(' :: (year ++ ')' :: p.1))
      | _ => none
    else none
  | _ => none

/-- Position matcher for `/\[(\d{4})\]\s+(\d+)\s+([A-Z]{2,6})\s+(\d+)/`,
the square-bracket reported-citation pattern; returns `match[0]`. -/
def matchSquareAt (cs : List Char) : Option (List Char) :=
  match cs with
  | '[' :: rest =>
    let (year, r1) := rest.span Char.isDigit
    if year.length = 4 then
      match r1 with
      | ']' :: r2 =>
        (matchReportedTail r2).map (fun p => '[' :: (year ++ ']' :: p.1))
      | _ => none
    else none
  | _ => none

/-- `extractReportedCitation` of `src/services/austlii.ts` (lines 72-90):
try the round-bracket pattern over the whole text first, then the
square-bracket pattern; return `match[0]` of the first pattern that hits. -/
def extractReportedCitation (text : String) : Option String :=
  match scanFirst matchRoundAt text.data with
  | some m => some m.asString
  | none =>
    match scanFirst matchSquareAt text.data with
    | some m => some m.asString
    | none => none

/-- Position matcher for the neutral-citation shape
`\[(\d{4})\]\s*(LETTER+)\s*(\d+)` with a configurable letter class
(`Char.isUpper` for the plain pattern of the result normalizer,
`Char.isAlpha` for the `/i`-flagged pattern of the query classifier).
Returns `(match[0], match[1])`, i.e. the whole match and the year group. -/
def matchNeutralAt (letterOk : Char → Bool) (cs : List Char) :
    Option (List Char × List Char) :=
  match cs with
  | '[' :: rest =>
    let (year, r1) := rest.span Char.isDigit
    if year.length = 4 then
      match r1 with
      | ']' :: r2 =>
        let (ws1, r3) := r2.span Char.isWhitespace
        let (code, r4) := r3.span letterOk
        if code.isEmpty then none else
        let (ws2, r5) := r4.span Char.isWhitespace
        let (num, _) := r5.span Char.isDigit
        if num.isEmpty then none else
        some ('[' :: (year ++ ']' :: (ws1 ++ code ++ ws2 ++ num)), year)
      | _ => none
    else none
  | _ => none

/-- Position matcher for `/(\w+)\s+v\.?\s+(\w+)/i` (party-vs-party):
word run, whitespace run, literal `v`/`V`, optional period, whitespace run,
word run.  Returns the two captured parties.  Because word characters and
whitespace are disjoint and the optional period can never be matched by
`\s+`, the backtracking engine is deterministic here. -/
def matchVsAt (cs : List Char) : Option (String × String) :=
  let (w1, r1) := cs.span isWordChar
  if w1.isEmpty then none else
  let (ws1, r2) := r1.span Char.isWhitespace
  if ws1.isEmpty then none else
  match r2 with
  | c :: r3 =>
    if c = 'v' || c = 'V' then
      let r4 := match r3 with
        | '.' :: r => r
        | r => r
      let (ws2, r5) := r4.span Char.isWhitespace
      if ws2.isEmpty then none else
      let (w2, _) := r5.span isWordChar
      if w2.isEmpty then none else
      some (w1.asString, w2.asString)
    else none
  | [] => none

/-- A position is at a JavaScript `\b` word boundary (for a pattern that
begins with a word character) when the preceding character, if any, is not a
word character. -/
def atBoundary (prev : Option Char) : Bool :=
  match prev with
  | none => true
  | some c => !isWordChar c

/-- Leftmost scan that also tracks the previous character, so position
matchers can implement `\b`. -/
def scanFirstB {β : Type} (m : Option Char → List Char → Option β) :
    Option Char → List Char → Option β
  | _, [] => none
  | prev, c :: rest =>
    match m prev (c :: rest) with
    | some b => some b
    | none => scanFirstB m (some c) rest

/-- Case-insensitively strip a (lowercase) literal from the front of the
input, returning the remainder. -/
def stripCI : List Char → List Char → Option (List Char)
  | [], cs => some cs
  | _ :: _, [] => none
  | p :: ps, c :: cs => if c.toLower = p then stripCI ps cs else none

/-- One alternative of `/\b(re|in\s+re)\s+\w+/i` after the boundary:
`re\s+\w`. -/
def matchReAlt (cs : List Char) : Bool :=
  match stripCI ['r', 'e'] cs with
  | none => false
  | some r1 =>
    let (ws, r2) := r1.span Char.isWhitespace
    !ws.isEmpty &&
      (match r2 with
       | c :: _ => isWordChar c
       | [] => false)

/-- The other alternative: `in\s+re\s+\w`. -/
def matchInReAlt (cs : List Char) : Bool :=
  match stripCI ['i', 'n'] cs with
  | none => false
  | some r1 =>
    let (ws, r2) := r1.span Char.isWhitespace
    if ws.isEmpty then false else matchReAlt r2

/-- Position matcher (with boundary) for `/\b(re|in\s+re)\s+\w+/i`. -/
def matchReB (prev : Option Char) (cs : List Char) : Option Unit :=
  if atBoundary prev && (matchReAlt cs || matchInReAlt cs) then some () else none

/-- Position matcher (with boundary) for `/\b\w+\s+v\.?\s+\w+/i`. -/
def matchVsB (prev : Option Char) (cs : List Char) : Option (String × String) :=
  if atBoundary prev then matchVsAt cs else none

/-- `isCaseNameQuery` of `src/services/austlii.ts` (lines 96-118): a query
looks like a case name when it matches the party-vs-party pattern, the
`Re`/`In re` pattern, contains a neutral-citation-shaped token
(case-insensitive), or contains a double quote. -/
def isCaseNameQuery (query : String) : Bool :=
  (scanFirstB matchVsB none query.data).isSome
  || (scanFirstB matchReB none query.data).isSome
  || (scanFirst (matchNeutralAt Char.isAlpha) query.data).isSome
  || query.data.contains '"'

/-- `determineSortMode` of `src/services/austlii.ts` (lines 123-143). -/
def determineSortMode (query : String) (options : SearchOptions) : SortMode :=
  if options.sortBy = some SortBy.relevance then SortMode.relevance
  else if options.sortBy = some SortBy.date then SortMode.date
  else if options.sortBy = some SortBy.auto ∨ options.sortBy = none then
    if options.type = DocType.case ∧ isCaseNameQuery query then SortMode.relevance
    else SortMode.date
  else SortMode.date

/-- Trim leading and trailing whitespace from a character list
(JavaScript `String.prototype.trim` on ASCII input). -/
def trimWs (cs : List Char) : List Char :=
  ((cs.dropWhile Char.isWhitespace).reverse.dropWhile Char.isWhitespace).reverse

/-- The normalization used by `boostTitleMatches`:
`.toLowerCase().replace(/[^\w\s]/g, " ").trim()`, on character lists. -/
def normalizeText (s : String) : List Char :=
  trimWs ((s.data.map Char.toLower).map
    (fun c => if isWordChar c || c.isWhitespace then c else ' '))

/-- Accumulator worker for `splitWsChars`; `cur` holds the current word
reversed. -/
def splitWsAux : List Char → List Char → List (List Char)
  | cur, [] => if cur.isEmpty then [] else [cur.reverse]
  | cur, c :: rest =>
    if c.isWhitespace then
      if cur.isEmpty then splitWsAux [] rest
      else cur.reverse :: splitWsAux [] rest
    else splitWsAux (c :: cur) rest

/-- JavaScript `split(/\s+/)` on trimmed input: maximal runs of
non-whitespace characters (the collapsing quantifier never yields empty
fragments on trimmed input). -/
def splitWsChars (cs : List Char) : List (List Char) :=
  splitWsAux [] cs

/-- Substring test on character lists (JavaScript
`String.prototype.includes`): `sub` occurs contiguously in the list.  The
empty string is a substring of everything, as in JavaScript. -/
def occursWithin (sub : List Char) : List Char → Bool
  | [] => sub.isEmpty
  | c :: rest => sub.isPrefixOf (c :: rest) || occursWithin sub rest

/-- Join words with single spaces (JavaScript `Array.prototype.join(" ")`). -/
def joinSp : List (List Char) → List Char
  | [] => []
  | [w] => w
  | w :: ws => w ++ ' ' :: joinSp ws

/-- The per-result score computed by `boostTitleMatches`
(`src/services/austlii.ts` lines 385-429): +10 per title word of length > 2
contained in the query's word set, +50 for the whole normalized query as a
substring, +30 for a shared three-word opening longer than 5 characters, and
a party bonus of +100 / +20 when the query has the party-vs-party shape. -/
def resultScore (query : String) (result : SearchResult) : Nat :=
  let normalizedQuery := normalizeText query
  let queryWords := (splitWsChars normalizedQuery).filter (fun w => 2 < w.length)
  let normalizedTitle := normalizeText result.title
  let titleWords := splitWsChars normalizedTitle
  let matchingWords :=
    (titleWords.filter (fun w => 2 < w.length && queryWords.contains w)).length
  let score1 := matchingWords * 10
  let score2 := score1 + (if occursWithin normalizedQuery normalizedTitle then 50 else 0)
  let queryStart := joinSp ((splitWsChars normalizedQuery).take 3)
  let score3 := score2 +
    (if queryStart.isPrefixOf normalizedTitle && 5 < queryStart.length then 30 else 0)
  match scanFirst matchVsAt query.data with
  | some (party1, party2) =>
    let p1 := party1.data.map Char.toLower
    let p2 := party2.data.map Char.toLower
    if occursWithin p1 normalizedTitle && occursWithin p2 normalizedTitle then
      score3 + 100
    else if occursWithin p1 normalizedTitle || occursWithin p2 normalizedTitle then
      score3 + 20
    else score3
  | none => score3

/-- Insert a scored result into a list already sorted by descending score,
after every entry with a strictly greater or equal score encountered before
its insertion point is skipped only when strictly greater — i.e. the element
is placed before the first entry whose score is ≤ its own.  Together with
`sortDesc` this implements the stable descending sort that
`Array.prototype.sort` (stable since ES2019) performs with the comparator
`(a, b) => b.score - a.score`. -/
def insertDesc (x : SearchResult × Nat) :
    List (SearchResult × Nat) → List (SearchResult × Nat)
  | [] => [x]
  | y :: ys => if x.2 < y.2 then y :: insertDesc x ys else x :: y :: ys

/-- Stable insertion sort by descending score. -/
def sortDesc : List (SearchResult × Nat) → List (SearchResult × Nat)
  | [] => []
  | x :: xs => insertDesc x (sortDesc xs)

/-- `boostTitleMatches` of `src/services/austlii.ts` (lines 376-434): score
every result against the query and stably sort by descending score.  The
query-derived values that the source hoists out of the loop are recomputed
inside `resultScore`; this is a pure common-subexpression transformation. -/
def boostTitleMatches (results : List SearchResult) (query : String) :
    List SearchResult :=
  let scored := results.map (fun r => (r, resultScore query r))
  (sortDesc scored).map Prod.fst

/-- Deduplication key: the `neutralCitation` when it is present and
non-empty.  JavaScript's `!result.neutralCitation` guard treats a missing
citation and an empty-string citation alike. -/
def keyOf (r : SearchResult) : Option String :=
  match r.neutralCitation with
  | none => none
  | some s => if s = "" then none else some s

/-- Replace the first occurrence of `old` in the list by `upd`, leaving the
list unchanged when `old` does not occur: the
`output.indexOf(existing)` / `output[idx] = result` step of
`deduplicateResults`. -/
def replaceFirst (old upd : SearchResult) : List SearchResult → List SearchResult
  | [] => []
  | x :: xs => if x = old then upd :: xs else x :: replaceFirst old upd xs

/-- The loop of `deduplicateResults` (`src/services/jade.ts` merge section,
lines 1189-1218 of the concatenated service file): `seen` is the
citation-to-kept-entry map (most recent binding first, as a `Map`), `out`
the output array built so far. -/
def dedupGo : List SearchResult → List (String × SearchResult) →
    List SearchResult → List SearchResult
  | [], _, out => out
  | r :: rest, seen, out =>
    match keyOf r with
    | none => dedupGo rest seen (out ++ [r])
    | some k =>
      match seen.lookup k with
      | none => dedupGo rest ((k, r) :: seen) (out ++ [r])
      | some existing =>
        if r.source = Source.jade ∧ existing.source ≠ Source.jade then
          dedupGo rest ((k, r) :: seen) (replaceFirst existing r out)
        else
          dedupGo rest seen out

/-- `deduplicateResults` of the result-merging section: deduplicate by
neutral citation, preferring jade.io entries, replacing in place. -/
def deduplicateResults (results : List SearchResult) : List SearchResult :=
  dedupGo results [] []

/-- `mergeSearchResults`: jade results are placed first so that they win
during deduplication. -/
def mergeSearchResults (austliiResults jadeResults : List SearchResult) :
    List SearchResult :=
  deduplicateResults (jadeResults ++ austliiResults)

/-- Boolean form of "carries dedup key `k`". -/
def keyIs (k : String) (r : SearchResult) : Bool :=
  keyOf r == some k

/-- First jade-sourced entry carrying key `k` in a list. -/
def firstJadeWith (k : String) (l : List SearchResult) : Option SearchResult :=
  (l.filter (keyIs k)).find? (fun r => r.source == Source.jade)

/-- The entry the specification says survives a collision on key `k` whose
first occurrence is `r` and whose later occurrences lie in `rest`: the first
encountered when it is from the preferred provider (jade), otherwise the
first later preferred duplicate, otherwise the first encountered. -/
def keptEntry (r : SearchResult) (k : String) (rest : List SearchResult) :
    SearchResult :=
  if r.source = Source.jade then r else (firstJadeWith k rest).getD r

/-- The output listing described by the specification of the Cross-Source
Reconciler: entries without a key are always retained in place; each key is
emitted exactly once, at its first-seen position, holding the kept entry for
that key (so a later preferred duplicate lands at the earlier,
non-preferred entry's position rather than being appended); `ks` is the set
of keys already emitted. -/
def dedupListing : List SearchResult → List String → List SearchResult
  | [], _ => []
  | r :: rest, ks =>
    match keyOf r with
    | none => r :: dedupListing rest ks
    | some k =>
      if k ∈ ks then dedupListing rest ks
      else keptEntry r k rest :: dedupListing rest (k :: ks)

/-- How an already-emitted entry is ultimately upgraded by the remaining
input `rest`: a non-preferred keyed entry is replaced by the first later
jade duplicate of its key, everything else stays. -/
def upgradeBy (rest : List SearchResult) (v : SearchResult) : SearchResult :=
  match keyOf v with
  | none => v
  | some k =>
    if v.source = Source.jade then v else (firstJadeWith k rest).getD v

/-- Tail `\s+\w+\s+\d{4}` of the date pattern used on the meta text;
returns the consumed characters. -/
def matchDateTail (cs : List Char) : Option (List Char) :=
  let (ws1, r1) := cs.span Char.isWhitespace
  if ws1.isEmpty then none else
  let (word, r2) := r1.span isWordChar
  if word.isEmpty then none else
  let (ws2, r3) := r2.span Char.isWhitespace
  if ws2.isEmpty then none else
  match r3 with
  | a :: b :: c :: d :: _ =>
    if a.isDigit && b.isDigit && c.isDigit && d.isDigit then
      some (ws1 ++ word ++ ws2 ++ [a, b, c, d])
    else none
  | _ => none

/-- Position matcher for `/(\d{1,2}\s+\w+\s+\d{4})/`: the greedy `\d{1,2}`
tries two digits first, then backtracks to one. -/
def matchDateAt (cs : List Char) : Option (List Char) :=
  match cs with
  | a :: b :: rest =>
    if a.isDigit then
      if b.isDigit then
        match matchDateTail rest with
        | some t => some (a :: b :: t)
        | none =>
          match matchDateTail (b :: rest) with
          | some t => some (a :: t)
          | none => none
      else (matchDateTail (b :: rest)).map (fun t => a :: t)
    else none
  | _ => none

/-- The alternation `(cth|vic|nsw|qld|sa|wa|tas|nt|act)` of the
jurisdiction pattern, tried in source order, each alternative requiring the
following `/`. -/
def jurisdictionCodes : List String :=
  ["cth", "vic", "nsw", "qld", "sa", "wa", "tas", "nt", "act"]

/-- Try each jurisdiction code (case-insensitively) followed by a slash. -/
def findCode : List String → List Char → Option String
  | [], _ => none
  | code :: more, rest =>
    match stripCI code.data rest with
    | some ('/' :: _) => some code
    | _ => findCode more rest

/-- Position matcher for `/\/au\/cases\/(cth|vic|nsw|qld|sa|wa|tas|nt|act)\//i`,
returning the lower-cased captured group. -/
def matchAuJurisAt (cs : List Char) : Option String :=
  match stripCI "/au/cases/".data cs with
  | none => none
  | some rest => findCode jurisdictionCodes rest

/-- Test for `/\/nz\/cases\//i`. -/
def hasNzCases (url : String) : Bool :=
  (scanFirst (fun cs => (stripCI "/nz/cases/".data cs).map (fun _ => ())) url.data).isSome

/-- Jurisdiction extraction of the result normalizer: the Australian
path-segment code when present, otherwise `"nz"` for the cross-border
provider path, otherwise nothing. -/
def extractJurisdiction (url : String) : Option String :=
  match scanFirst matchAuJurisAt url.data with
  | some code => some code
  | none => if hasNzCases url then some "nz" else none

/-- The per-record normalization performed inside the scraping loop of
`searchAustLii` (`src/services/austlii.ts` lines 298-350), starting from the
scraped fragments: the anchor text, the already-absolutized URL, the text of
the `p.meta` block, and the text of its first anchor when one exists.
Records with an empty title or URL, journal-article URLs, and records
inconsistent with the requested type are silently dropped (`none`). -/
def normalizeAustliiRecord (docType : DocType) (linkText url metaText : String)
    (courtRaw : Option String) : Option SearchResult :=
  let title := (trimWs linkText.data).asString
  if title.data.isEmpty || url.data.isEmpty then none
  else if occursWithin "/journals/".data url.data then none
  else if docType = DocType.case ∧ ¬ (occursWithin "/cases/".data url.data) then none
  else if docType = DocType.legislation ∧ ¬ (occursWithin "/legis/".data url.data) then none
  else
    let citationMatch := scanFirst (matchNeutralAt Char.isUpper) title.data
    let neutralCitation := citationMatch.map (fun p => p.1.asString)
    let year := citationMatch.map (fun p => p.2.asString)
    let jurisdiction := extractJurisdiction url
    let dateStr := (scanFirst matchDateAt metaText.data).map List.asString
    let court := courtRaw.map (fun c => (trimWs c.data).asString)
    let reportedCitation := extractReportedCitation title
    let summary :=
      match court with
      | some c =>
        if c.data.isEmpty then dateStr
        else some (c ++ (match dateStr with | some d => " - " ++ d | none => ""))
      | none => dateStr
    some ⟨title, none, neutralCitation, reportedCitation, url, Source.austlii,
      summary, jurisdiction, year, docType⟩

/-- The post-parse phase of `searchAustLii` (lines 233 and 353-359): apply
the title-match boost when relevance sorting is active and the query looks
like a case name, then truncate to the limit (`options.limit ?? 10`). -/
def austliiRank (query : String) (options : SearchOptions)
    (results : List SearchResult) : List SearchResult :=
  let limit := options.limit.getD 10
  let finalResults :=
    if determineSortMode query options = SortMode.relevance ∧ isCaseNameQuery query
    then boostTitleMatches results query
    else results
  finalResults.take limit

/-- The search tool handlers of `src/index.ts` (lines 62-82 and 105-125)
after the network layer: the AustLII list (already ranked and truncated by
`searchAustLii`) is either returned directly or, when `includeJade` is set,
merged with the jade.io resolution list with no further truncation.
`parsed` stands for the records scraped from the AustLII response,
`jadeResults` for whatever subset the jade.io resolution produced. -/
def searchHandlerOutput (includeJade : Bool) (query : String)
    (options : SearchOptions) (parsed jadeResults : List SearchResult) :
    List SearchResult :=
  let austliiResults := austliiRank query options parsed
  if includeJade then mergeSearchResults austliiResults jadeResults
  else austliiResults

/-- Modelled from the spec (claim C6's reading of the Citation Parser): the
first substring of the text, in document order, matching the
reported-citation shape with either bracket style — at each position the
round and the square shape are both accepted. -/
def firstReportedShapeMatch (text : String) : Option String :=
  (scanFirst
    (fun cs =>
      match matchRoundAt cs with
      | some m => some m
      | none => matchSquareAt cs) text.data).map List.asString

/-- URL of the Mabo example record. -/
def maboUrl : String :=
  "https://www.austlii.edu.au/cgi-bin/viewdoc/au/cases/cth/HCA/1992/23.html"

/-- The result that the normalizer actually produces for the Mabo raw
record whose meta text carries the reported citation. -/
def maboRecord : SearchResult :=
  ⟨"Mabo v Queensland (No 2) [1992] HCA 23", none, some "[1992] HCA 23", none,
    maboUrl, Source.austlii, some "(1992) 175 CLR 1", some "cth", some "1992",
    DocType.case⟩

/-! Helper lemmas about the deduplication embedding. -/

theorem keyIs_iff {k : String} {r : SearchResult} :
    keyIs k r = true ↔ keyOf r = some k := by
  simp [keyIs]

theorem keyIs_eq_false {k : String} {r : SearchResult} (h : keyOf r ≠ some k) :
    keyIs k r = false := by
  simp [keyIs, h]

theorem upgradeBy_nil (v : SearchResult) : upgradeBy [] v = v := by
  unfold upgradeBy
  cases h : keyOf v with
  | none => rfl
  | some k => simp [firstJadeWith]

theorem upgradeBy_keyless {v : SearchResult} (h : keyOf v = none)
    (l : List SearchResult) : upgradeBy l v = v := by
  unfold upgradeBy
  rw [h]

theorem upgradeBy_of_jade {v : SearchResult} {k : String} (hk : keyOf v = some k)
    (hj : v.source = Source.jade) (l : List SearchResult) : upgradeBy l v = v := by
  unfold upgradeBy
  rw [hk]
  simp [hj]

theorem firstJadeWith_cons_skip {k : String} {r : SearchResult}
    (h : keyIs k r = false) (rest : List SearchResult) :
    firstJadeWith k (r :: rest) = firstJadeWith k rest := by
  simp [firstJadeWith, List.filter_cons, h]

theorem firstJadeWith_cons_jade {k : String} {r : SearchResult}
    (hk : keyIs k r = true) (hj : r.source = Source.jade)
    (rest : List SearchResult) : firstJadeWith k (r :: rest) = some r := by
  rw [firstJadeWith, List.filter_cons, if_pos hk]
  exact List.find?_cons_of_pos _ (by simp [hj])

theorem firstJadeWith_cons_nonjade {k : String} {r : SearchResult}
    (hk : keyIs k r = true) (hj : ¬ r.source = Source.jade)
    (rest : List SearchResult) :
    firstJadeWith k (r :: rest) = firstJadeWith k rest := by
  rw [firstJadeWith, List.filter_cons, if_pos hk, firstJadeWith]
  exact List.find?_cons_of_neg _ (by simp [hj])

theorem upgradeBy_some {v : SearchResult} {k : String} (h : keyOf v = some k)
    (l : List SearchResult) :
    upgradeBy l v =
      if v.source = Source.jade then v else (firstJadeWith k l).getD v := by
  unfold upgradeBy
  rw [h]

theorem upgradeBy_cons_keyless {r : SearchResult} (h : keyOf r = none)
    (rest : List SearchResult) (v : SearchResult) :
    upgradeBy (r :: rest) v = upgradeBy rest v := by
  cases hv : keyOf v with
  | none => rw [upgradeBy_keyless hv, upgradeBy_keyless hv]
  | some k =>
    rw [upgradeBy_some hv, upgradeBy_some hv,
      firstJadeWith_cons_skip (keyIs_eq_false (by simp [h]))]

theorem upgradeBy_cons_of_ne {r v : SearchResult} {k : String}
    (hr : keyOf r = some k) (hv : keyIs k v = false) (rest : List SearchResult) :
    upgradeBy (r :: rest) v = upgradeBy rest v := by
  cases hvk : keyOf v with
  | none => rw [upgradeBy_keyless hvk, upgradeBy_keyless hvk]
  | some k' =>
    have hk' : k ≠ k' := by
      intro e
      rw [keyIs, hvk, e] at hv
      simp at hv
    rw [upgradeBy_some hvk, upgradeBy_some hvk,
      firstJadeWith_cons_skip (keyIs_eq_false (by rw [hr]; simp [hk']))]

theorem upgradeBy_cons_nonjade {r : SearchResult} {k : String}
    (hr : keyOf r = some k) (hj : ¬ r.source = Source.jade)
    (rest : List SearchResult) (v : SearchResult) :
    upgradeBy (r :: rest) v = upgradeBy rest v := by
  cases hvk : keyOf v with
  | none => rw [upgradeBy_keyless hvk, upgradeBy_keyless hvk]
  | some k' =>
    by_cases hk : k' = k
    · subst hk
      rw [upgradeBy_some hvk, upgradeBy_some hvk,
        firstJadeWith_cons_nonjade (keyIs_iff.mpr hr) hj]
    · have hne : keyOf r ≠ some k' := by
        rw [hr]
        intro e
        exact hk (Option.some.inj e).symm
      rw [upgradeBy_some hvk, upgradeBy_some hvk,
        firstJadeWith_cons_skip (keyIs_eq_false hne)]

theorem filter_replaceFirst_key {k : String} {existing r : SearchResult}
    (hkr : keyIs k r = true) :
    ∀ (out : List SearchResult), out.filter (keyIs k) = [existing] →
      (replaceFirst existing r out).filter (keyIs k) = [r] := by
  intro out
  induction out with
  | nil => intro h; simp at h
  | cons x xs ih =>
    intro h
    rw [List.filter_cons] at h
    by_cases hkx : keyIs k x = true
    · rw [if_pos hkx] at h
      injection h with h1 h2
      subst h1
      rw [replaceFirst, if_pos rfl, List.filter_cons, if_pos hkr, h2]
    · rw [if_neg hkx] at h
      have hxe : x ≠ existing := by
        intro e
        subst e
        have : x ∈ List.filter (keyIs k) xs := by rw [h]; exact List.mem_cons_self _ _
        exact hkx (List.mem_filter.mp this).2
      rw [replaceFirst, if_neg hxe, List.filter_cons, if_neg hkx]
      exact ih h

theorem filter_replaceFirst_other {k' : String} {existing r : SearchResult}
    (he : keyIs k' existing = false) (hr : keyIs k' r = false) :
    ∀ (out : List SearchResult),
      (replaceFirst existing r out).filter (keyIs k') = out.filter (keyIs k') := by
  intro out
  induction out with
  | nil => rfl
  | cons x xs ih =>
    by_cases hx : x = existing
    · subst hx
      rw [replaceFirst, if_pos rfl, List.filter_cons, List.filter_cons, if_neg, if_neg]
      · simp [he]
      · simp [hr]
    · rw [replaceFirst, if_neg hx, List.filter_cons, List.filter_cons]
      by_cases hkx : keyIs k' x = true
      · rw [if_pos hkx, if_pos hkx, ih]
      · rw [if_neg hkx, if_neg hkx, ih]

theorem map_replaceFirst {k : String} {existing r : SearchResult}
    (rest : List SearchResult)
    (hke : keyOf existing = some k) (hkr : keyOf r = some k)
    (hrj : r.source = Source.jade) (hej : ¬ existing.source = Source.jade) :
    ∀ (out : List SearchResult), out.filter (keyIs k) = [existing] →
      (replaceFirst existing r out).map (upgradeBy rest) =
        out.map (upgradeBy (r :: rest)) := by
  intro out
  induction out with
  | nil => intro h; simp at h
  | cons x xs ih =>
    intro h
    rw [List.filter_cons] at h
    by_cases hkx : keyIs k x = true
    · rw [if_pos hkx] at h
      injection h with h1 h2
      subst h1
      rw [replaceFirst, if_pos rfl, List.map_cons, List.map_cons]
      have hhead : upgradeBy rest r = upgradeBy (r :: rest) x := by
        rw [upgradeBy_some hkr, if_pos hrj, upgradeBy_some hke, if_neg hej,
          firstJadeWith_cons_jade (keyIs_iff.mpr hkr) hrj]
        rfl
      have htail : ∀ y ∈ xs, upgradeBy rest y = upgradeBy (r :: rest) y := by
        intro y hy
        have hky : keyIs k y = false := by
          rcases List.filter_eq_nil_iff.mp h2 y hy with hcontra
          simpa using hcontra
        exact (upgradeBy_cons_of_ne hkr hky rest).symm
      rw [hhead, List.map_congr_left htail]
    · rw [if_neg hkx] at h
      have hxe : x ≠ existing := by
        intro e
        subst e
        have : x ∈ List.filter (keyIs k) xs := by rw [h]; exact List.mem_cons_self _ _
        exact hkx (List.mem_filter.mp this).2
      rw [replaceFirst, if_neg hxe, List.map_cons, List.map_cons,
        upgradeBy_cons_of_ne hkr (by simpa using hkx) rest, ih h]

theorem lookup_none_iff_keys (seen : List (String × SearchResult)) (k : String) :
    seen.lookup k = none ↔ k ∉ seen.map Prod.fst := by
  induction seen with
  | nil => simp [List.lookup]
  | cons a t ih =>
    obtain ⟨k', v⟩ := a
    by_cases h : k = k'
    · subst h
      simp [List.lookup]
    · have hbeq : (k == k') = false := by simp [h]
      rw [List.lookup, hbeq]
      show List.lookup k t = none ↔ k ∉ List.map Prod.fst ((k', v) :: t)
      rw [ih]
      simp only [List.map_cons, List.mem_cons, not_or]
      constructor
      · intro hn
        exact ⟨h, hn⟩
      · intro hn
        exact hn.2

theorem dedupListing_cons_keyless {r : SearchResult} (h : keyOf r = none)
    (rest : List SearchResult) (ks : List String) :
    dedupListing (r :: rest) ks = r :: dedupListing rest ks := by
  rw [dedupListing, h]

theorem dedupListing_cons_some {r : SearchResult} {k : String}
    (h : keyOf r = some k) (rest : List SearchResult) (ks : List String) :
    dedupListing (r :: rest) ks =
      if k ∈ ks then dedupListing rest ks
      else keptEntry r k rest :: dedupListing rest (k :: ks) := by
  rw [dedupListing, h]

theorem dedupListing_congr_keys :
    ∀ (l : List SearchResult) (ks1 ks2 : List String),
      (∀ x, x ∈ ks1 ↔ x ∈ ks2) → dedupListing l ks1 = dedupListing l ks2 := by
  intro l
  induction l with
  | nil => intro ks1 ks2 _; rfl
  | cons r rest ih =>
    intro ks1 ks2 hks
    cases hk : keyOf r with
    | none =>
      rw [dedupListing_cons_keyless hk, dedupListing_cons_keyless hk]
      exact congrArg _ (ih ks1 ks2 hks)
    | some k =>
      rw [dedupListing_cons_some hk, dedupListing_cons_some hk]
      by_cases hmem : k ∈ ks1
      · rw [if_pos hmem, if_pos ((hks k).mp hmem)]
        exact ih ks1 ks2 hks
      · rw [if_neg hmem, if_neg (fun hc => hmem ((hks k).mpr hc))]
        refine congrArg _ (ih (k :: ks1) (k :: ks2) ?_)
        intro x
        simp only [List.mem_cons]
        constructor
        · intro hx
          rcases hx with hx | hx
          · exact Or.inl hx
          · exact Or.inr ((hks x).mp hx)
        · intro hx
          rcases hx with hx | hx
          · exact Or.inl hx
          · exact Or.inr ((hks x).mpr hx)

theorem lookup_cons_self (k : String) (v : SearchResult)
    (t : List (String × SearchResult)) :
    List.lookup k ((k, v) :: t) = some v := by
  simp [List.lookup]

theorem lookup_cons_ne {k k' : String} (h : k' ≠ k) (v : SearchResult)
    (t : List (String × SearchResult)) :
    List.lookup k' ((k, v) :: t) = List.lookup k' t := by
  rw [List.lookup]
  have hbeq : (k' == k) = false := by simp [h]
  rw [hbeq]

theorem dedupGo_cons_keyless {r : SearchResult} (h : keyOf r = none)
    (rest : List SearchResult) (seen : List (String × SearchResult))
    (out : List SearchResult) :
    dedupGo (r :: rest) seen out = dedupGo rest seen (out ++ [r]) := by
  rw [dedupGo, h]

theorem dedupGo_cons_new {r : SearchResult} {k : String}
    {seen : List (String × SearchResult)} (h : keyOf r = some k)
    (hl : seen.lookup k = none) (rest : List SearchResult)
    (out : List SearchResult) :
    dedupGo (r :: rest) seen out = dedupGo rest ((k, r) :: seen) (out ++ [r]) := by
  simp only [dedupGo, h, hl]

theorem dedupGo_cons_replace {r existing : SearchResult} {k : String}
    {seen : List (String × SearchResult)} (h : keyOf r = some k)
    (hl : seen.lookup k = some existing)
    (hcond : r.source = Source.jade ∧ existing.source ≠ Source.jade)
    (rest : List SearchResult) (out : List SearchResult) :
    dedupGo (r :: rest) seen out =
      dedupGo rest ((k, r) :: seen) (replaceFirst existing r out) := by
  simp only [dedupGo, h, hl]
  rw [if_pos hcond]

theorem dedupGo_cons_skip {r existing : SearchResult} {k : String}
    {seen : List (String × SearchResult)} (h : keyOf r = some k)
    (hl : seen.lookup k = some existing)
    (hcond : ¬(r.source = Source.jade ∧ existing.source ≠ Source.jade))
    (rest : List SearchResult) (out : List SearchResult) :
    dedupGo (r :: rest) seen out = dedupGo rest seen out := by
  simp only [dedupGo, h, hl]
  rw [if_neg hcond]

theorem upgradeBy_eq_keptEntry {r : SearchResult} {k : String}
    (h : keyOf r = some k) (rest : List SearchResult) :
    upgradeBy rest r = keptEntry r k rest := by
  rw [upgradeBy_some h, keptEntry]

/-- Central characterization of the merge loop: from a state whose `seen`
map binds exactly the keys already present in `out` (each to the unique
entry of `out` carrying it), the loop emits `out` with every entry upgraded
by the pending input, followed by the specification listing of the pending
input. -/
theorem dedupGo_spec :
    ∀ (rest : List SearchResult) (seen : List (String × SearchResult))
      (out : List SearchResult),
      (∀ k v, seen.lookup k = some v →
        keyOf v = some k ∧ out.filter (keyIs k) = [v]) →
      (∀ k, seen.lookup k = none → out.filter (keyIs k) = []) →
      dedupGo rest seen out =
        out.map (upgradeBy rest) ++ dedupListing rest (seen.map Prod.fst) := by
  intro rest
  induction rest with
  | nil =>
    intro seen out _ _
    have hmap : out.map (upgradeBy []) = out := by
      have := List.map_congr_left (l := out) (f := upgradeBy []) (g := id)
        (fun a _ => upgradeBy_nil a)
      simpa using this
    simp [dedupGo, dedupListing, hmap]
  | cons r rest ih =>
    intro seen out hsome hnone
    cases hk : keyOf r with
    | none =>
      have hkr : ∀ k, keyIs k r = false := fun k => keyIs_eq_false (by simp [hk])
      rw [dedupGo_cons_keyless hk]
      rw [ih seen (out ++ [r])
        (fun k v hv => by
          rcases hsome k v hv with ⟨h1, h2⟩
          exact ⟨h1, by rw [List.filter_append, h2]; simp [hkr k]⟩)
        (fun k hv => by rw [List.filter_append, hnone k hv]; simp [hkr k])]
      rw [dedupListing_cons_keyless hk, List.map_append]
      simp only [List.map_cons, List.map_nil]
      rw [upgradeBy_keyless hk rest,
        List.map_congr_left
          (l := out) (fun a _ => (upgradeBy_cons_keyless hk rest a).symm)]
      simp
    | some k =>
      cases hl : seen.lookup k with
      | none =>
        have hks : k ∉ seen.map Prod.fst := (lookup_none_iff_keys seen k).mp hl
        have hkrt : keyIs k r = true := keyIs_iff.mpr hk
        rw [dedupGo_cons_new hk hl]
        rw [ih ((k, r) :: seen) (out ++ [r])
          (fun k' v hv => by
            by_cases hkk : k' = k
            · subst hkk
              rw [lookup_cons_self] at hv
              injection hv with hv
              subst hv
              refine ⟨hk, ?_⟩
              rw [List.filter_append, hnone k' hl]
              simp [hkrt]
            · rw [lookup_cons_ne hkk] at hv
              rcases hsome k' v hv with ⟨h1, h2⟩
              refine ⟨h1, ?_⟩
              rw [List.filter_append, h2]
              simp [keyIs_eq_false (show keyOf r ≠ some k' by
                rw [hk]; exact fun e => hkk (Option.some.inj e).symm)])
          (fun k' hv => by
            by_cases hkk : k' = k
            · subst hkk
              rw [lookup_cons_self] at hv
              exact absurd hv (by simp)
            · rw [lookup_cons_ne hkk] at hv
              rw [List.filter_append, hnone k' hv]
              simp [keyIs_eq_false (show keyOf r ≠ some k' by
                rw [hk]; exact fun e => hkk (Option.some.inj e).symm)])]
        rw [dedupListing_cons_some hk, if_neg hks, List.map_append]
        simp only [List.map_cons, List.map_nil, List.map_cons]
        rw [upgradeBy_eq_keptEntry hk rest]
        rw [List.map_congr_left (l := out) (fun a ha => by
          refine (upgradeBy_cons_of_ne hk ?_ rest).symm
          by_cases hka : keyIs k a = true
          · exfalso
            have : a ∈ out.filter (keyIs k) := List.mem_filter.mpr ⟨ha, hka⟩
            rw [hnone k hl] at this
            simp at this
          · simpa using hka)]
        simp
      | some existing =>
        rcases hsome k existing hl with ⟨hke, hfe⟩
        have hkin : k ∈ seen.map Prod.fst := by
          by_contra hc
          rw [← lookup_none_iff_keys] at hc
          rw [hl] at hc
          exact absurd hc (by simp)
        by_cases hcond : r.source = Source.jade ∧ existing.source ≠ Source.jade
        · rw [dedupGo_cons_replace hk hl hcond]
          rw [ih ((k, r) :: seen) (replaceFirst existing r out)
            (fun k' v hv => by
              by_cases hkk : k' = k
              · subst hkk
                rw [lookup_cons_self] at hv
                injection hv with hv
                subst hv
                exact ⟨hk, filter_replaceFirst_key (keyIs_iff.mpr hk) out hfe⟩
              · rw [lookup_cons_ne hkk] at hv
                rcases hsome k' v hv with ⟨h1, h2⟩
                refine ⟨h1, ?_⟩
                rw [filter_replaceFirst_other
                  (keyIs_eq_false (show keyOf existing ≠ some k' by
                    rw [hke]; exact fun e => hkk (Option.some.inj e).symm))
                  (keyIs_eq_false (show keyOf r ≠ some k' by
                    rw [hk]; exact fun e => hkk (Option.some.inj e).symm)), h2])
            (fun k' hv => by
              by_cases hkk : k' = k
              · subst hkk
                rw [lookup_cons_self] at hv
                exact absurd hv (by simp)
              · rw [lookup_cons_ne hkk] at hv
                rw [filter_replaceFirst_other
                  (keyIs_eq_false (show keyOf existing ≠ some k' by
                    rw [hke]; exact fun e => hkk (Option.some.inj e).symm))
                  (keyIs_eq_false (show keyOf r ≠ some k' by
                    rw [hk]; exact fun e => hkk (Option.some.inj e).symm)),
                  hnone k' hv])]
          rw [map_replaceFirst rest hke hk hcond.1 hcond.2 out hfe]
          simp only [List.map_cons]
          rw [dedupListing_cons_some hk, if_pos hkin]
          rw [dedupListing_congr_keys rest (k :: List.map Prod.fst seen)
            (List.map Prod.fst seen)
            (fun x => by
              simp only [List.mem_cons]
              constructor
              · intro hx
                rcases hx with hx | hx
                · rw [hx]; exact hkin
                · exact hx
              · intro hx
                exact Or.inr hx)]
        · rw [dedupGo_cons_skip hk hl hcond]
          rw [ih seen out hsome hnone]
          rw [dedupListing_cons_some hk, if_pos hkin]
          have hcongr : List.map (upgradeBy rest) out =
              List.map (upgradeBy (r :: rest)) out := by
            apply List.map_congr_left
            intro a ha
            by_cases hka : keyIs k a = true
            · have hmem : a ∈ out.filter (keyIs k) := List.mem_filter.mpr ⟨ha, hka⟩
              rw [hfe] at hmem
              have hae : a = existing := by simpa using hmem
              by_cases haj : a.source = Source.jade
              · rw [upgradeBy_of_jade (keyIs_iff.mp hka) haj rest,
                  upgradeBy_of_jade (keyIs_iff.mp hka) haj (r :: rest)]
              · have hexj : existing.source ≠ Source.jade := by
                  rw [← hae]
                  exact haj
                have hrj : ¬ r.source = Source.jade := fun hc => hcond ⟨hc, hexj⟩
                exact (upgradeBy_cons_nonjade hk hrj rest a).symm
            · exact (upgradeBy_cons_of_ne hk (by simpa using hka) rest).symm
          rw [hcongr]

/-- The merge loop computes exactly the specification listing. -/
theorem deduplicateResults_eq_listing (l : List SearchResult) :
    deduplicateResults l = dedupListing l [] := by
  rw [deduplicateResults, dedupGo_spec l [] []
    (fun k v hv => by simp [List.lookup] at hv)
    (fun k _ => rfl)]
  simp

theorem keyOf_keptEntry {r : SearchResult} {k : String} (h : keyOf r = some k)
    (rest : List SearchResult) : keyOf (keptEntry r k rest) = some k := by
  rw [keptEntry]
  by_cases hj : r.source = Source.jade
  · rw [if_pos hj]
    exact h
  · rw [if_neg hj]
    cases hf : firstJadeWith k rest with
    | none => simpa using h
    | some j =>
      have hj' : j ∈ rest.filter (keyIs k) := List.mem_of_find?_eq_some hf
      have := (List.mem_filter.mp hj').2
      simpa using keyIs_iff.mp this

theorem dedupListing_countP :
    ∀ (l : List SearchResult) (ks : List String) (k : String),
      (dedupListing l ks).countP (keyIs k) ≤ (if k ∈ ks then 0 else 1) := by
  intro l
  induction l with
  | nil =>
    intro ks k
    simp [dedupListing]
  | cons r rest ih =>
    intro ks k
    cases hk : keyOf r with
    | none =>
      rw [dedupListing_cons_keyless hk, List.countP_cons]
      have hkr : keyIs k r = false := keyIs_eq_false (by simp [hk])
      simpa [hkr] using ih ks k
    | some k0 =>
      rw [dedupListing_cons_some hk]
      by_cases hmem : k0 ∈ ks
      · rw [if_pos hmem]
        exact ih ks k
      · rw [if_neg hmem, List.countP_cons]
        by_cases hkk : k = k0
        · subst hkk
          have hkept : keyIs k (keptEntry r k rest) = true :=
            keyIs_iff.mpr (keyOf_keptEntry hk rest)
          have htail := ih (k :: ks) k
          rw [if_pos (List.mem_cons_self k ks)] at htail
          rw [if_neg hmem, hkept]
          simp only [if_true]
          omega
        · have hkept : keyIs k (keptEntry r k0 rest) = false :=
            keyIs_eq_false (by
              rw [keyOf_keptEntry hk rest]
              exact fun e => hkk (Option.some.inj e).symm)
          have htail := ih (k0 :: ks) k
          rw [hkept]
          simp only [Bool.false_eq_true, if_false, Nat.add_zero]
          by_cases hks2 : k ∈ ks
          · rw [if_pos hks2]
            rw [if_pos (List.mem_cons_of_mem _ hks2)] at htail
            omega
          · rw [if_neg hks2]
            rw [if_neg (by simp [hkk, hks2])] at htail
            omega

theorem dedupListing_keyless_mem {v : SearchResult} (hv : keyOf v = none) :
    ∀ (l : List SearchResult) (ks : List String), v ∈ l → v ∈ dedupListing l ks := by
  intro l
  induction l with
  | nil =>
    intro ks h
    simp at h
  | cons r rest ih =>
    intro ks h
    rcases List.mem_cons.mp h with h | h
    · subst h
      rw [dedupListing_cons_keyless hv]
      exact List.mem_cons_self _ _
    · cases hk : keyOf r with
      | none =>
        rw [dedupListing_cons_keyless hk]
        exact List.mem_cons_of_mem _ (ih ks h)
      | some k =>
        rw [dedupListing_cons_some hk]
        by_cases hmem : k ∈ ks
        · rw [if_pos hmem]
          exact ih ks h
        · rw [if_neg hmem]
          exact List.mem_cons_of_mem _ (ih (k :: ks) h)

theorem dedupListing_length : ∀ (l : List SearchResult) (ks : List String),
    (dedupListing l ks).length ≤ l.length := by
  intro l
  induction l with
  | nil =>
    intro ks
    simp [dedupListing]
  | cons r rest ih =>
    intro ks
    cases hk : keyOf r with
    | none =>
      rw [dedupListing_cons_keyless hk]
      simpa using ih ks
    | some k =>
      rw [dedupListing_cons_some hk]
      by_cases hmem : k ∈ ks
      · rw [if_pos hmem]
        exact le_trans (ih ks) (Nat.le_succ _)
      · rw [if_neg hmem]
        simpa using ih (k :: ks)

theorem dedupListing_eq_self :
    ∀ (l : List SearchResult) (ks : List String),
      (∀ k, k ∈ ks → l.countP (keyIs k) = 0) →
      (∀ k, l.countP (keyIs k) ≤ 1) →
      dedupListing l ks = l := by
  intro l
  induction l with
  | nil =>
    intro ks _ _
    rfl
  | cons r rest ih =>
    intro ks hks hcnt
    cases hk : keyOf r with
    | none =>
      rw [dedupListing_cons_keyless hk]
      refine congrArg _ (ih ks ?_ ?_)
      · intro k hkk
        have := hks k hkk
        rw [List.countP_cons] at this
        omega
      · intro k
        have := hcnt k
        rw [List.countP_cons] at this
        omega
    | some k0 =>
      have hkr : keyIs k0 r = true := keyIs_iff.mpr hk
      have hmem : k0 ∉ ks := by
        intro hc
        have := hks k0 hc
        rw [List.countP_cons, if_pos hkr] at this
        omega
      rw [dedupListing_cons_some hk, if_neg hmem]
      have hrestcnt : rest.countP (keyIs k0) = 0 := by
        have := hcnt k0
        rw [List.countP_cons, if_pos hkr] at this
        omega
      have hkept : keptEntry r k0 rest = r := by
        rw [keptEntry]
        have hfil : rest.filter (keyIs k0) = [] := by
          rw [List.countP_eq_length_filter] at hrestcnt
          exact List.length_eq_zero.mp hrestcnt
        have hfj : firstJadeWith k0 rest = none := by
          rw [firstJadeWith, hfil]
          rfl
        rw [hfj]
        simp
      rw [hkept]
      refine congrArg _ (ih (k0 :: ks) ?_ ?_)
      · intro k hkk
        rcases List.mem_cons.mp hkk with he | he
        · subst he
          exact hrestcnt
        · have := hks k he
          rw [List.countP_cons] at this
          omega
      · intro k
        have := hcnt k
        rw [List.countP_cons] at this
        omega

theorem deduplicateResults_countP (l : List SearchResult) (k : String) :
    (deduplicateResults l).countP (keyIs k) ≤ 1 := by
  rw [deduplicateResults_eq_listing]
  simpa using dedupListing_countP l [] k

theorem deduplicateResults_length_le (l : List SearchResult) :
    (deduplicateResults l).length ≤ l.length := by
  rw [deduplicateResults_eq_listing]
  exact dedupListing_length l []

/-! Helper lemmas about the stable descending sort of the relevance
booster. -/

theorem insertDesc_perm (x : SearchResult × Nat) :
    ∀ (l : List (SearchResult × Nat)), (insertDesc x l).Perm (x :: l) := by
  intro l
  induction l with
  | nil => exact List.Perm.refl _
  | cons y ys ih =>
    rw [insertDesc]
    by_cases h : x.2 < y.2
    · rw [if_pos h]
      exact (List.Perm.cons y ih).trans (List.Perm.swap x y ys)
    · rw [if_neg h]

theorem sortDesc_perm : ∀ (l : List (SearchResult × Nat)),
    (sortDesc l).Perm l := by
  intro l
  induction l with
  | nil => exact List.Perm.refl _
  | cons x xs ih =>
    rw [sortDesc]
    exact (insertDesc_perm x (sortDesc xs)).trans (List.Perm.cons x ih)

theorem insertDesc_sorted (x : SearchResult × Nat) :
    ∀ {l : List (SearchResult × Nat)},
      l.Pairwise (fun a b => b.2 ≤ a.2) →
      (insertDesc x l).Pairwise (fun a b => b.2 ≤ a.2) := by
  intro l
  induction l with
  | nil =>
    intro _
    simp [insertDesc]
  | cons y ys ih =>
    intro hp
    rcases List.pairwise_cons.mp hp with ⟨hy, hys⟩
    rw [insertDesc]
    by_cases h : x.2 < y.2
    · rw [if_pos h]
      refine List.pairwise_cons.mpr ⟨?_, ih hys⟩
      intro b hb
      rcases List.mem_cons.mp ((insertDesc_perm x ys).mem_iff.mp hb) with hb | hb
      · subst hb
        exact Nat.le_of_lt h
      · exact hy b hb
    · rw [if_neg h]
      refine List.pairwise_cons.mpr ⟨?_, hp⟩
      intro b hb
      rcases List.mem_cons.mp hb with hb | hb
      · subst hb
        omega
      · have := hy b hb
        omega

theorem sortDesc_sorted : ∀ (l : List (SearchResult × Nat)),
    (sortDesc l).Pairwise (fun a b => b.2 ≤ a.2) := by
  intro l
  induction l with
  | nil => simp [sortDesc]
  | cons x xs ih =>
    rw [sortDesc]
    exact insertDesc_sorted x ih

theorem insertDesc_filter (x : SearchResult × Nat) (s : Nat) :
    ∀ (l : List (SearchResult × Nat)),
      (insertDesc x l).filter (fun p => p.2 == s) =
        (x :: l).filter (fun p => p.2 == s) := by
  intro l
  induction l with
  | nil => rfl
  | cons y ys ih =>
    rw [insertDesc]
    by_cases h : x.2 < y.2
    · rw [if_pos h]
      by_cases hxs : x.2 = s
      · have hys : ¬ y.2 = s := by omega
        simp [List.filter_cons, ih, hxs, hys]
      · simp [List.filter_cons, ih, hxs]
    · rw [if_neg h]

theorem sortDesc_filter (s : Nat) : ∀ (l : List (SearchResult × Nat)),
    (sortDesc l).filter (fun p => p.2 == s) = l.filter (fun p => p.2 == s) := by
  intro l
  induction l with
  | nil => rfl
  | cons x xs ih =>
    rw [sortDesc, insertDesc_filter, List.filter_cons, List.filter_cons, ih]

theorem boost_scored_fst (results : List SearchResult) (query : String) :
    (results.map (fun r => (r, resultScore query r))).map Prod.fst = results := by
  rw [List.map_map]
  exact (List.map_congr_left (fun a _ => rfl)).trans (List.map_id results)

theorem boost_scored_snd (results : List SearchResult) (query : String) :
    ∀ p ∈ results.map (fun r => (r, resultScore query r)),
      p.2 = resultScore query p.1 := by
  intro p hp
  rcases List.mem_map.mp hp with ⟨r, _, hr⟩
  rw [← hr]

/-! Helper lemmas about the reported-citation parser. -/

theorem extractReportedCitation_of_round {t : String} {m : List Char}
    (h : scanFirst matchRoundAt t.data = some m) :
    extractReportedCitation t = some m.asString := by
  rw [extractReportedCitation, h]

theorem extractReportedCitation_of_no_round {t : String}
    (h : scanFirst matchRoundAt t.data = none) :
    extractReportedCitation t =
      (scanFirst matchSquareAt t.data).map List.asString := by
  rw [extractReportedCitation, h]
  cases hs : scanFirst matchSquareAt t.data with
  | none => rfl
  | some m => rfl

theorem scanFirst_shape_none :
    ∀ t : List Char,
      scanFirst (fun cs =>
          match matchRoundAt cs with
          | some m => some m
          | none => matchSquareAt cs) t = none ↔
        scanFirst matchRoundAt t = none ∧ scanFirst matchSquareAt t = none := by
  intro t
  induction t with
  | nil => simp [scanFirst]
  | cons c rest ih =>
    cases hr : matchRoundAt (c :: rest) with
    | some m =>
      constructor
      · intro h
        rw [scanFirst, hr] at h
        exact absurd h (by simp)
      · intro h
        have h1 := h.1
        rw [scanFirst, hr] at h1
        exact absurd h1 (by simp)
    | none =>
      cases hs : matchSquareAt (c :: rest) with
      | some m =>
        constructor
        · intro h
          rw [scanFirst, hr, hs] at h
          exact absurd h (by simp)
        · intro h
          have h2 := h.2
          rw [scanFirst, hs] at h2
          exact absurd h2 (by simp)
      | none =>
        constructor
        · intro h
          rw [scanFirst, hr, hs] at h
          have h1 : scanFirst matchRoundAt rest = none := (ih.mp h).1
          have h2 : scanFirst matchSquareAt rest = none := (ih.mp h).2
          constructor
          · rw [scanFirst, hr]
            exact h1
          · rw [scanFirst, hs]
            exact h2
        · intro h
          have h1 := h.1
          have h2 := h.2
          rw [scanFirst, hr] at h1
          rw [scanFirst, hs] at h2
          rw [scanFirst, hr, hs]
          exact ih.mpr ⟨h1, h2⟩

/-! Claim theorems. -/

/-- Claim C1: `deduplicateResults` keeps each non-empty neutral citation on
at most one output entry, never removes an input entry lacking a (non-empty)
neutral citation, and computes exactly the listing described by the
specification (`dedupListing`): output in first-seen order, each key emitted
once at its first occurrence's position holding the preferred-provider
(jade) entry on a collision — first-encountered winning when both or neither
collider is preferred — so a later preferred duplicate replaces its earlier
non-preferred counterpart in place rather than being appended. -/
theorem c1_dedup_contract (l : List SearchResult) :
    (∀ k : String, k ≠ "" →
      (deduplicateResults l).countP (fun r => r.neutralCitation == some k) ≤ 1)
    ∧ (∀ r ∈ l, keyOf r = none → r ∈ deduplicateResults l)
    ∧ deduplicateResults l = dedupListing l [] := by
  refine ⟨?_, ?_, deduplicateResults_eq_listing l⟩
  · intro k hk
    have hcong : ∀ r ∈ deduplicateResults l,
        (r.neutralCitation == some k) = keyIs k r := by
      intro r _
      rw [keyIs, keyOf]
      cases hn : r.neutralCitation with
      | none => simp
      | some s =>
        show (some s == some k) =
          ((if s = "" then none else some s : Option String) == some k)
        by_cases hs : s = ""
        · subst hs
          rw [if_pos rfl]
          have hleft : (some ("" : String) == some k) = false :=
            beq_eq_false_iff_ne.mpr (by simpa using Ne.symm hk)
          have hright : ((none : Option String) == some k) = false := rfl
          rw [hleft, hright]
        · rw [if_neg hs]
    rw [List.countP_eq_length_filter, List.filter_congr hcong,
      ← List.countP_eq_length_filter]
    exact deduplicateResults_countP l k
  · intro r hr hkey
    rw [deduplicateResults_eq_listing]
    exact dedupListing_keyless_mem hkey l [] hr

/-- Witness for claim C1 at a concrete two-element input. -/
theorem c1_dedup_contract_witness :
    (deduplicateResults
        [⟨"A", none, some "[2023] HCA 1", none, "ua", Source.austlii, none, none, none, DocType.case⟩,
         ⟨"B", none, none, none, "ub", Source.austlii, none, none, none, DocType.case⟩]).countP
        (fun r => r.neutralCitation == some "[2023] HCA 1") ≤ 1
    ∧ (⟨"B", none, none, none, "ub", Source.austlii, none, none, none, DocType.case⟩ : SearchResult) ∈
        deduplicateResults
          [⟨"A", none, some "[2023] HCA 1", none, "ua", Source.austlii, none, none, none, DocType.case⟩,
           ⟨"B", none, none, none, "ub", Source.austlii, none, none, none, DocType.case⟩] := by
  constructor
  · exact (c1_dedup_contract _).1 "[2023] HCA 1" (by decide)
  · exact (c1_dedup_contract _).2.1 _
      (List.mem_cons_of_mem _ (List.mem_cons_self _ _)) (by decide)

/-- Claim C2: `mergeSearchResults listA listB` is definitionally
`deduplicateResults` of the concatenation with the preferred (jade) list
first, and merging with an empty second list is the first list's own
deduplication. -/
theorem c2_merge_refines_dedup :
    (∀ austliiResults jadeResults : List SearchResult,
      mergeSearchResults austliiResults jadeResults =
        deduplicateResults (jadeResults ++ austliiResults))
    ∧ (∀ listA : List SearchResult,
        mergeSearchResults listA [] = deduplicateResults listA) :=
  ⟨fun _ _ => rfl, fun _ => rfl⟩

/-- Claim C4: `determineSortMode` honors an explicit `relevance`/`date`
preference unconditionally; with `sortBy` set to `auto` or unset (both
treated identically) it selects relevance exactly for case-typed searches
whose query the classifier accepts — in particular a legislation search
gets date ordering even for the case-name-shaped query `"Smith v Jones"`. -/
theorem c4_sort_mode_selector :
    (∀ (query : String) (options : SearchOptions),
      (options.sortBy = some SortBy.relevance →
        determineSortMode query options = SortMode.relevance)
      ∧ (options.sortBy = some SortBy.date →
          determineSortMode query options = SortMode.date)
      ∧ ((options.sortBy = some SortBy.auto ∨ options.sortBy = none) →
          (determineSortMode query options = SortMode.relevance ↔
            options.type = DocType.case ∧ isCaseNameQuery query = true)))
    ∧ (∀ (query : String) (j : Option String) (lim : Option Nat) (ty : DocType),
        determineSortMode query ⟨j, lim, ty, some SortBy.auto⟩ =
          determineSortMode query ⟨j, lim, ty, none⟩)
    ∧ determineSortMode "Smith v Jones"
        ⟨none, none, DocType.legislation, some SortBy.auto⟩ = SortMode.date
    ∧ isCaseNameQuery "Smith v Jones" = true := by
  refine ⟨?_, ?_, by decide, by decide⟩
  · intro query options
    refine ⟨?_, ?_, ?_⟩
    · intro h
      rw [determineSortMode, if_pos h]
    · intro h
      rw [determineSortMode, if_neg (by simp [h]), if_pos h]
    · intro h
      have h1 : ¬ options.sortBy = some SortBy.relevance := by
        rcases h with h | h <;> simp [h]
      have h2 : ¬ options.sortBy = some SortBy.date := by
        rcases h with h | h <;> simp [h]
      rw [determineSortMode, if_neg h1, if_neg h2, if_pos h]
      by_cases hc : options.type = DocType.case ∧ isCaseNameQuery query = true
      · rw [if_pos hc]
        simp [hc]
      · rw [if_neg hc]
        constructor
        · intro he
          exact absurd he (by decide)
        · intro he
          exact absurd he hc
  · intro query j lim ty
    rw [determineSortMode, determineSortMode]
    simp

/-- Witness for claim C4 at concrete inputs. -/
theorem c4_sort_mode_selector_witness :
    determineSortMode "negligence"
      ⟨none, none, DocType.case, some SortBy.relevance⟩ = SortMode.relevance
    ∧ (determineSortMode "Smith v Jones"
        ⟨none, none, DocType.case, some SortBy.auto⟩ = SortMode.relevance ↔
        DocType.case = DocType.case ∧ isCaseNameQuery "Smith v Jones" = true) := by
  constructor
  · exact (c4_sort_mode_selector.1 "negligence"
      ⟨none, none, DocType.case, some SortBy.relevance⟩).1 rfl
  · exact (c4_sort_mode_selector.1 "Smith v Jones"
      ⟨none, none, DocType.case, some SortBy.auto⟩).2.2 (Or.inl rfl)

/-- Claim C5: the query classifier accepts the six named-authority shaped
queries pinned by the specification and rejects the four topic queries. -/
theorem c5_query_classifier :
    isCaseNameQuery "Donoghue v Stevenson" = true
    ∧ isCaseNameQuery "Smith v. Jones" = true
    ∧ isCaseNameQuery "Re Wakim" = true
    ∧ isCaseNameQuery "In re Wakim" = true
    ∧ isCaseNameQuery "[1992] HCA 23" = true
    ∧ isCaseNameQuery "\"exact phrase\"" = true
    ∧ isCaseNameQuery "negligence duty of care" = false
    ∧ isCaseNameQuery "contract breach damages" = false
    ∧ isCaseNameQuery "unfair dismissal" = false
    ∧ isCaseNameQuery "property rights" = false := by
  decide

/-- Claim C7: deduplication is idempotent. -/
theorem c7_dedup_idempotent :
    ∀ l : List SearchResult,
      deduplicateResults (deduplicateResults l) = deduplicateResults l := by
  intro l
  rw [deduplicateResults_eq_listing (deduplicateResults l)]
  refine dedupListing_eq_self (deduplicateResults l) []
    (fun k hk => absurd hk (List.not_mem_nil k)) ?_
  intro k
  exact deduplicateResults_countP l k

/-- Claim C3: `boostTitleMatches` returns a permutation of its input (in
particular it preserves length and maps the empty list to the empty list),
ordered by descending `resultScore` with ties keeping their relative input
order (stable sort, expressed by the per-score filter identity), and on the
pinned three-title example with query "Donoghue v Stevenson" it places the
Donoghue/Stevenson entry first. -/
theorem c3_boost_reorders :
    (∀ (results : List SearchResult) (query : String),
      (boostTitleMatches results query).Perm results
      ∧ (boostTitleMatches results query).length = results.length
      ∧ ((boostTitleMatches results query).map (resultScore query)).Pairwise
          (fun a b => b ≤ a)
      ∧ ∀ s : Nat,
          (boostTitleMatches results query).filter
              (fun r => resultScore query r == s) =
            results.filter (fun r => resultScore query r == s))
    ∧ (∀ query : String, boostTitleMatches [] query = [])
    ∧ (boostTitleMatches
        [⟨"Other Case v Someone [2025] HCA 1", none, none, none, "u1", Source.austlii, none, none, none, DocType.case⟩,
         ⟨"Donoghue v Stevenson [1932] UKHL 100", none, none, none, "u2", Source.austlii, none, none, none, DocType.case⟩,
         ⟨"Another Case [2024] FCA 99", none, none, none, "u3", Source.austlii, none, none, none, DocType.case⟩]
        "Donoghue v Stevenson").map SearchResult.title =
      ["Donoghue v Stevenson [1932] UKHL 100",
       "Other Case v Someone [2025] HCA 1",
       "Another Case [2024] FCA 99"] := by
  refine ⟨?_, fun query => rfl, by decide⟩
  intro results query
  simp only [boostTitleMatches]
  have hperm :
      ((sortDesc (results.map (fun r => (r, resultScore query r)))).map
        Prod.fst).Perm results :=
    ((sortDesc_perm _).map Prod.fst).trans (by rw [boost_scored_fst])
  refine ⟨hperm, hperm.length_eq, ?_, ?_⟩
  · rw [List.map_map, List.pairwise_map]
    refine List.Pairwise.imp_of_mem ?_ (sortDesc_sorted _)
    intro a b ha hb hle
    have ha2 := boost_scored_snd results query a ((sortDesc_perm _).mem_iff.mp ha)
    have hb2 := boost_scored_snd results query b ((sortDesc_perm _).mem_iff.mp hb)
    simp only [Function.comp_apply]
    rw [← ha2, ← hb2]
    exact hle
  · intro s
    have h1 : ∀ x ∈ sortDesc (results.map (fun r => (r, resultScore query r))),
        ((fun r => resultScore query r == s) ∘ Prod.fst) x =
          (fun p : SearchResult × Nat => p.2 == s) x := by
      intro x hx
      have hx2 := boost_scored_snd results query x ((sortDesc_perm _).mem_iff.mp hx)
      simp only [Function.comp_apply]
      rw [hx2]
    have h2 : ∀ x ∈ results.map (fun r => (r, resultScore query r)),
        (fun p : SearchResult × Nat => p.2 == s) x =
          ((fun r => resultScore query r == s) ∘ Prod.fst) x := by
      intro x hx
      have hx2 := boost_scored_snd results query x hx
      simp only [Function.comp_apply]
      rw [hx2]
    rw [List.filter_map, List.filter_congr h1, sortDesc_filter,
      List.filter_congr h2, ← List.filter_map, boost_scored_fst]

/-- Counterexample to claim C6 as stated: on a text holding a square-bracket
reported citation before a round-bracket one, the function does not return
the first substring matching the (round-or-square) reported shape — the
round-bracket pattern preempts it over the whole document. -/
theorem c6_counterexample :
    firstReportedShapeMatch "[2023] 1 NZLR 456 (2024) 350 ALR 123" =
      some "[2023] 1 NZLR 456"
    ∧ extractReportedCitation "[2023] 1 NZLR 456 (2024) 350 ALR 123" =
      some "(2024) 350 ALR 123"
    ∧ extractReportedCitation "[2023] 1 NZLR 456 (2024) 350 ALR 123" ≠
      firstReportedShapeMatch "[2023] 1 NZLR 456 (2024) 350 ALR 123" := by
  decide

/-- Claim C6 (amended): `extractReportedCitation` returns the leftmost
round-bracket reported citation when one occurs anywhere in the text, and
only otherwise the leftmost square-bracket one; it returns the no-match
value exactly when no reported-shape substring occurs at all (in particular
on empty and neutral-citation-only input, never throwing), and on the
pinned single-citation examples it returns exactly that substring. -/
theorem c6_reported_citation_extraction :
    (∀ (t : String) (m : List Char),
      scanFirst matchRoundAt t.data = some m →
        extractReportedCitation t = some m.asString)
    ∧ (∀ t : String, scanFirst matchRoundAt t.data = none →
        extractReportedCitation t =
          (scanFirst matchSquareAt t.data).map List.asString)
    ∧ (∀ t : String,
        (extractReportedCitation t = none ↔ firstReportedShapeMatch t = none))
    ∧ extractReportedCitation "noted at (2024) 350 ALR 123" =
        some "(2024) 350 ALR 123"
    ∧ extractReportedCitation "noted at [2024] 1 NZLR 456" =
        some "[2024] 1 NZLR 456"
    ∧ extractReportedCitation "[2024] HCA 26" = none
    ∧ extractReportedCitation "" = none := by
  refine ⟨fun t m h => extractReportedCitation_of_round h,
    fun t h => extractReportedCitation_of_no_round h, ?_,
    by decide, by decide, by decide, by decide⟩
  intro t
  rw [firstReportedShapeMatch]
  constructor
  · intro h
    have hr : scanFirst matchRoundAt t.data = none := by
      cases hr : scanFirst matchRoundAt t.data with
      | none => rfl
      | some m =>
        rw [extractReportedCitation_of_round hr] at h
        exact absurd h (by simp)
    have hs : scanFirst matchSquareAt t.data = none := by
      rw [extractReportedCitation_of_no_round hr] at h
      cases hs : scanFirst matchSquareAt t.data with
      | none => rfl
      | some m =>
        rw [hs] at h
        exact absurd h (by simp)
    rw [(scanFirst_shape_none t.data).mpr ⟨hr, hs⟩]
    rfl
  · intro h
    have hcomb : scanFirst (fun cs =>
        match matchRoundAt cs with
        | some m => some m
        | none => matchSquareAt cs) t.data = none := by
      cases hc : scanFirst (fun cs =>
          match matchRoundAt cs with
          | some m => some m
          | none => matchSquareAt cs) t.data with
      | none => rfl
      | some m =>
        rw [hc] at h
        exact absurd h (by simp)
    have hboth := (scanFirst_shape_none t.data).mp hcomb
    rw [extractReportedCitation_of_no_round hboth.1, hboth.2]
    rfl

/-- Witness for claim C6 (amended) at a concrete input. -/
theorem c6_reported_citation_extraction_witness :
    extractReportedCitation "(2024) 350 ALR 123" =
      some (("(2024) 350 ALR 123").data.asString) :=
  c6_reported_citation_extraction.1 "(2024) 350 ALR 123"
    ("(2024) 350 ALR 123").data (by decide)

/-- Counterexample to claim C8 as stated: the raw Mabo record whose meta
text (and hence produced summary) carries the reported citation
"(1992) 175 CLR 1" normalizes with `reportedCitation` unset — the parser is
not invoked on the summary text. -/
theorem c8_counterexample :
    normalizeAustliiRecord DocType.case "Mabo v Queensland (No 2) [1992] HCA 23"
        maboUrl "(1992) 175 CLR 1" (some "(1992) 175 CLR 1") = some maboRecord
    ∧ maboRecord.neutralCitation = some "[1992] HCA 23"
    ∧ maboRecord.year = some "1992"
    ∧ maboRecord.summary = some "(1992) 175 CLR 1"
    ∧ maboRecord.reportedCitation = none := by
  decide

/-- Claim C8 (amended): the normalizer extracts `neutralCitation` and
`year` from the title's citation-shaped token, and populates
`reportedCitation` by running the Citation Parser on the (trimmed) title
only — a reported citation present only in the summary/meta text is not
captured; on the Mabo example the result carries
neutralCitation "[1992] HCA 23" and year "1992" with `reportedCitation`
unset even though the summary holds "(1992) 175 CLR 1". -/
theorem c8_normalizer_populates_from_title :
    (∀ (docType : DocType) (linkText url metaText : String)
        (courtRaw : Option String) (r : SearchResult),
      normalizeAustliiRecord docType linkText url metaText courtRaw = some r →
        r.reportedCitation =
            extractReportedCitation ((trimWs linkText.data).asString)
          ∧ r.neutralCitation =
              (scanFirst (matchNeutralAt Char.isUpper)
                ((trimWs linkText.data).asString).data).map (fun p => p.1.asString)
          ∧ r.year =
              (scanFirst (matchNeutralAt Char.isUpper)
                ((trimWs linkText.data).asString).data).map (fun p => p.2.asString))
    ∧ normalizeAustliiRecord DocType.case "Mabo v Queensland (No 2) [1992] HCA 23"
        maboUrl "(1992) 175 CLR 1" (some "(1992) 175 CLR 1") = some maboRecord
    ∧ maboRecord.neutralCitation = some "[1992] HCA 23"
    ∧ maboRecord.year = some "1992"
    ∧ maboRecord.reportedCitation = none := by
  refine ⟨?_, by decide, by decide, by decide, by decide⟩
  intro dt lt url mt ct r h
  simp only [normalizeAustliiRecord] at h
  split at h
  · exact absurd h (by simp)
  · split at h
    · exact absurd h (by simp)
    · split at h
      · exact absurd h (by simp)
      · split at h
        · exact absurd h (by simp)
        · rw [Option.some.injEq] at h
          subst h
          exact ⟨rfl, rfl, rfl⟩

/-- Witness for claim C8 (amended) at the Mabo input. -/
theorem c8_normalizer_witness :
    maboRecord.reportedCitation =
      extractReportedCitation
        ((trimWs ("Mabo v Queensland (No 2) [1992] HCA 23").data).asString) :=
  (c8_normalizer_populates_from_title.1 DocType.case
    "Mabo v Queensland (No 2) [1992] HCA 23" maboUrl "(1992) 175 CLR 1"
    (some "(1992) 175 CLR 1") maboRecord (by decide)).1

/-- Counterexample to claim C9 as stated: with `includeJade`, a request with
limit 1 whose AustLII pass already returns one result and whose jade.io
resolution returns one result with a different citation yields a merged
output of length 2 — the limit is not re-applied after reconciliation. -/
theorem c9_counterexample :
    (searchHandlerOutput true "negligence"
        ⟨none, some 1, DocType.case, some SortBy.date⟩
        [⟨"A", none, some "[2023] HCA 1", none, "ua", Source.austlii, none, none, none, DocType.case⟩]
        [⟨"J", none, some "[2023] HCA 2", none, "uj", Source.jade, none, none, none, DocType.case⟩]).length = 2
    ∧ (⟨none, some 1, DocType.case, some SortBy.date⟩ : SearchOptions).limit.getD 10 = 1 := by
  decide

/-- Claim C9 (amended): the limit is applied as a truncation inside the
provider search, after the relevance re-ranking pass but before any
cross-source reconciliation: without jade merging the handler output never
exceeds the limit, while the merged output is only bounded by the limit
plus the size of the jade.io resolution list and can exceed the limit. -/
theorem c9_limit_truncation :
    (∀ (query : String) (options : SearchOptions)
        (parsed jadeResults : List SearchResult),
      (searchHandlerOutput false query options parsed jadeResults).length ≤
        options.limit.getD 10)
    ∧ (∀ (query : String) (options : SearchOptions)
        (parsed jadeResults : List SearchResult),
      (searchHandlerOutput true query options parsed jadeResults).length ≤
        options.limit.getD 10 + jadeResults.length)
    ∧ (∀ (query : String) (options : SearchOptions)
        (results : List SearchResult),
      (austliiRank query options results).length ≤ options.limit.getD 10) := by
  have hrank : ∀ (q : String) (o : SearchOptions) (rs : List SearchResult),
      (austliiRank q o rs).length ≤ o.limit.getD 10 := by
    intro q o rs
    simp only [austliiRank]
    rw [List.length_take]
    exact min_le_left _ _
  refine ⟨?_, ?_, hrank⟩
  · intro q o parsed jade
    simp only [searchHandlerOutput, Bool.false_eq_true, if_false]
    exact hrank q o parsed
  · intro q o parsed jade
    simp only [searchHandlerOutput, if_true]
    refine le_trans (deduplicateResults_length_le _) ?_
    rw [List.length_append]
    have := hrank q o parsed
    omega

/-- Claim C10: in `extractReportedCitation` the round-bracket pattern takes
precedence over the whole document: whenever the round pattern matches
anywhere, its leftmost match is returned, and the square pattern's result
is consulted only when the round pattern matches nowhere; on a text whose
square-bracket citation occurs before its round-bracket one, the
round-bracket one is returned. -/
theorem c10_round_precedence :
    (∀ (t : String) (m : List Char),
      scanFirst matchRoundAt t.data = some m →
        extractReportedCitation t = some m.asString)
    ∧ (∀ t : String, scanFirst matchRoundAt t.data = none →
        extractReportedCitation t =
          (scanFirst matchSquareAt t.data).map List.asString)
    ∧ extractReportedCitation "[2024] 1 NZLR 456 and (2023) 3 NZLR 789" =
        some "(2023) 3 NZLR 789"
    ∧ (scanFirst matchSquareAt
        ("[2024] 1 NZLR 456 and (2023) 3 NZLR 789").data).map List.asString =
        some "[2024] 1 NZLR 456" := by
  refine ⟨fun t m h => extractReportedCitation_of_round h,
    fun t h => extractReportedCitation_of_no_round h, by decide, by decide⟩

/-- Witness for claim C10 at a concrete input. -/
theorem c10_round_precedence_witness :
    extractReportedCitation "see (2023) 3 NZLR 789" =
      some (("(2023) 3 NZLR 789").data.asString) :=
  c10_round_precedence.1 "see (2023) 3 NZLR 789"
    ("(2023) 3 NZLR 789").data (by decide)

end AuslawMCP
